import Mathlib

/-!
Verification of the `minivec` crate (src/lib.rs): a minimal dynamically
growing vector `MiniVec<T>` backed by a manually managed heap buffer.

Modelling choices (shallow embedding of src/lib.rs):

* `usize` fields are modelled as `Nat`.  None of the arithmetic in the
  source can overflow the machine word for a container that fits in
  memory, with one exception: the expression `self.size - 1` in `remove`
  underflows when `size = 0`.  Rust's checked (debug) arithmetic aborts
  there, and the model makes that panic explicit (see `MiniVec.remove`).
* The raw allocation `buffer: Option<*mut T>` is modelled as
  `Option (Nat → T)`: `none` is the absent allocation, and `some buf`
  is a live allocation whose slot `i` holds `buf i`.  The model keeps
  the map total: slots at positions `size ..` hold unspecified junk
  values, which is how the model renders reads of uninitialized or
  out-of-allocation memory (such reads are undefined behaviour in the
  real program; the model gives them the junk value, which matches the
  control flow of the compiled program: the read itself does not panic).
  A freshly allocated buffer is filled with the junk value `default`.
* Panics (`Option::unwrap` on `None`, the explicit `panic!` calls in
  `Index`/`IndexMut`, debug-mode integer underflow) are modelled by
  returning `none` from the operation: `none` means the program aborts.
* `realloc` preserves the contents of the retained prefix of the
  allocation; on the total-map model the buffer map is simply reused.
-/

/-- State of `MiniVec<T>` (src/lib.rs lines 27-31): `capacity` allocated
slots, `size` live elements, and an optional raw buffer. -/
structure MiniVec (T : Type) where
  capacity : Nat
  size : Nat
  buffer : Option (Nat → T)

namespace MiniVec

/-- Growth factor (src/lib.rs line 51): `DEFAULT_GROWTH = 2`. -/
def DEFAULT_GROWTH : Nat := 2

/-- First allocation capacity (src/lib.rs line 52): `DEFAULT_FIRST_CAP = 2`. -/
def DEFAULT_FIRST_CAP : Nat := 2

/-- Writing one slot of the buffer: `*(ptr.offset(i)) = x`. -/
def updFn {T : Type} (buf : Nat → T) (i : Nat) (x : T) : Nat → T :=
  fun j => if j = i then x else buf j

/-- Embeds `MiniVec::new` (src/lib.rs lines 64-70): capacity 0, size 0,
no buffer. -/
def new (T : Type) : MiniVec T :=
  ⟨0, 0, none⟩

/-- Embeds `MiniVec::size` (src/lib.rs lines 85-87). -/
def sizeOf {T : Type} (v : MiniVec T) : Nat :=
  v.size

/-- Embeds `MiniVec::capacity` (src/lib.rs lines 108-110). -/
def capacityOf {T : Type} (v : MiniVec T) : Nat :=
  v.capacity

/-- Embeds `MiniVec::grow` (src/lib.rs lines 112-132).  With a live
buffer it doubles `capacity` and reallocates, preserving the contents
(total-map model: the same map).  With no buffer it allocates
`DEFAULT_FIRST_CAP` slots of uninitialized memory (junk `default`). -/
def grow {T : Type} [Inhabited T] (v : MiniVec T) : MiniVec T :=
  match v.buffer with
  | some buf => ⟨v.capacity * DEFAULT_GROWTH, v.size, some buf⟩
  | none => ⟨DEFAULT_FIRST_CAP, v.size, some (fun _ => default)⟩

/-- Embeds `MiniVec::push` (src/lib.rs lines 146-156): grow when
`size == capacity`, then `*(buffer.unwrap().offset(size)) = new_element`
and `size += 1`.  The `unwrap` panic (buffer still absent) is `none`;
it is unreachable from states satisfying the representation
invariant. -/
def push {T : Type} [Inhabited T] (v : MiniVec T) (x : T) : Option (MiniVec T) :=
  let w := if v.size = v.capacity then grow v else v
  match w.buffer with
  | none => none
  | some buf => some ⟨w.capacity, w.size + 1, some (updFn buf w.size x)⟩

/-- The shift loop of `MiniVec::remove` (src/lib.rs lines 172-177),
by iteration count: `n` times do `*start = *(start+1); start += 1`,
with `start` beginning at slot `start`. -/
def shiftLoop {T : Type} : (Nat → T) → Nat → Nat → (Nat → T)
  | buf, _, 0 => buf
  | buf, start, n + 1 => shiftLoop (updFn buf start (buf (start + 1))) (start + 1) n

/-- Embeds `MiniVec::remove` (src/lib.rs lines 168-183).  Notably the
source performs NO bounds check on `index`: it unwraps the buffer
(panic = `none` when the buffer is absent), clones the value at slot
`index` (junk/undefined-behaviour read when `index >= size`; the model
returns the junk in the total map), runs the shift loop for
`index..size-1` (empty range when `index >= size-1`), and decrements
`size`.  The `size - 1` underflow when `size = 0` is a debug-mode
panic, modelled as `none`. -/
def remove {T : Type} (v : MiniVec T) (index : Nat) : Option (T × MiniVec T) :=
  match v.buffer with
  | none => none
  | some buf =>
    let removed := buf index
    if v.size = 0 then none
    else
      some (removed,
        ⟨v.capacity, v.size - 1, some (shiftLoop buf index (v.size - 1 - index))⟩)

/-- Embeds `Index::index` (src/lib.rs lines 189-195): panic (`none`)
when `index >= size`, otherwise the element at slot `index` (the
`unwrap` panic on an absent buffer is also `none`). -/
def get {T : Type} (v : MiniVec T) (index : Nat) : Option T :=
  if v.size ≤ index then none
  else
    match v.buffer with
    | none => none
    | some buf => some (buf index)

/-- Embeds a write through `IndexMut::index_mut` (src/lib.rs lines
199-205), i.e. `v[index] = x`: panic (`none`) when `index >= size`,
otherwise overwrite slot `index` in place. -/
def set {T : Type} (v : MiniVec T) (index : Nat) (x : T) : Option (MiniVec T) :=
  if v.size ≤ index then none
  else
    match v.buffer with
    | none => none
    | some buf => some ⟨v.capacity, v.size, some (updFn buf index x)⟩

/-- The representation invariant from the spec's data model:
`size <= capacity`, and the storage buffer exists exactly when
`capacity > 0`. -/
def Inv {T : Type} (v : MiniVec T) : Prop :=
  v.size ≤ v.capacity ∧ (v.buffer.isSome = true ↔ 0 < v.capacity)

instance {T : Type} (v : MiniVec T) : Decidable (Inv v) := by
  unfold Inv; infer_instance

/-- `N` sequential pushes of the values `f 0, f 1, ..., f (N-1)`
starting from `MiniVec::new()`. -/
def pushSeq {T : Type} [Inhabited T] (f : Nat → T) : Nat → Option (MiniVec T)
  | 0 => some (new T)
  | n + 1 => (pushSeq f n).bind (fun v => push v (f n))

/-! Helper lemmas. -/

/-- Closed form of the shift loop: running `n` iterations from slot
`start` moves each slot in `[start, start + n)` one position left and
leaves all other slots unchanged. -/
theorem shiftLoop_apply {T : Type} (n : Nat) :
    ∀ (buf : Nat → T) (start i : Nat),
      shiftLoop buf start n i =
        if start ≤ i ∧ i < start + n then buf (i + 1) else buf i := by
  induction n with
  | zero =>
    intro buf start i
    rw [shiftLoop, if_neg (by omega)]
  | succ n ih =>
    intro buf start i
    rw [shiftLoop, ih]
    by_cases h1 : start + 1 ≤ i ∧ i < start + 1 + n
    · rw [if_pos h1, if_pos (by omega), updFn, if_neg (by omega)]
    · rw [if_neg h1]
      by_cases h2 : i = start
      · subst h2
        rw [if_pos (by omega), updFn, if_pos rfl]
      · rw [if_neg (by omega), updFn, if_neg h2]

/-- Unfolding lemma for `remove` on a state with a live buffer and
positive size: no panic occurs, whatever `index` is. -/
theorem remove_spec_aux {T : Type} (v : MiniVec T) (index : Nat) (buf : Nat → T)
    (hb : v.buffer = some buf) (hsz : 0 < v.size) :
    remove v index = some (buf index,
      ⟨v.capacity, v.size - 1, some (shiftLoop buf index (v.size - 1 - index))⟩) := by
  unfold remove
  rw [hb]
  simp [Nat.pos_iff_ne_zero.mp hsz]

/-- Reading a state built from explicit fields. -/
theorem get_mk {T : Type} (c s : Nat) (b : Nat → T) (i : Nat) :
    get (⟨c, s, some b⟩ : MiniVec T) i = if s ≤ i then none else some (b i) :=
  rfl

/-- Full description of one `push` from any state satisfying the
representation invariant: it succeeds, increments `size`, follows the
capacity schedule of `grow`, stores the element at index `old_size`,
leaves all old elements unchanged, and preserves the invariant. -/
theorem push_spec_aux {T : Type} [Inhabited T] (v : MiniVec T) (x : T) (h : Inv v) :
    ∃ w : MiniVec T, push v x = some w ∧
      w.size = v.size + 1 ∧
      (v.size = v.capacity →
        w.capacity = if v.capacity = 0 then DEFAULT_FIRST_CAP
          else v.capacity * DEFAULT_GROWTH) ∧
      (v.size ≠ v.capacity → w.capacity = v.capacity) ∧
      w.buffer.isSome = true ∧
      v.size < w.capacity ∧
      get w v.size = some x ∧
      (∀ i : Nat, i < v.size → get w i = get v i) ∧
      Inv w := by
  obtain ⟨c, s, b⟩ := v
  obtain ⟨hsc, hbs⟩ := h
  simp only at hsc hbs ⊢
  cases b with
  | none =>
    have hcap : c = 0 := by
      simp at hbs
      omega
    have hsz : s = 0 := by omega
    subst hcap hsz
    refine ⟨⟨DEFAULT_FIRST_CAP, 1, some (updFn (fun _ => default) 0 x)⟩,
      rfl, rfl, fun _ => rfl, fun hne => absurd rfl hne, rfl, ?_, ?_, ?_, ?_, ?_⟩
    · show (0:Nat) < DEFAULT_FIRST_CAP
      decide
    · rw [get_mk, if_neg (by omega)]
      simp [updFn]
    · intro i hi
      exact absurd hi (by omega)
    · show (1:Nat) ≤ DEFAULT_FIRST_CAP
      decide
    · show (some (updFn (fun _ => default) 0 x)).isSome = true ↔ (0:Nat) < DEFAULT_FIRST_CAP
      simp [DEFAULT_FIRST_CAP]
  | some buf =>
    have hcap : 0 < c := hbs.mp rfl
    by_cases hec : s = c
    · refine ⟨⟨c * DEFAULT_GROWTH, s + 1, some (updFn buf s x)⟩,
        ?_, rfl, fun _ => ?_, fun hne => absurd hec hne, rfl, ?_, ?_, ?_, ?_, ?_⟩
      · unfold push
        simp only
        rw [if_pos hec]
        rfl
      · rw [if_neg (by omega)]
      · show s < c * DEFAULT_GROWTH
        unfold DEFAULT_GROWTH
        omega
      · rw [get_mk, if_neg (by omega)]
        simp [updFn]
      · intro i hi
        rw [get_mk, if_neg (by omega), get_mk, if_neg (by omega)]
        simp only [updFn]
        rw [if_neg (by omega)]
      · show s + 1 ≤ c * DEFAULT_GROWTH
        unfold DEFAULT_GROWTH
        omega
      · show (some (updFn buf s x)).isSome = true ↔ 0 < c * DEFAULT_GROWTH
        unfold DEFAULT_GROWTH
        simp
        omega
    · refine ⟨⟨c, s + 1, some (updFn buf s x)⟩,
        ?_, rfl, fun heq => absurd heq hec, fun _ => rfl, rfl, ?_, ?_, ?_, ?_, ?_⟩
      · unfold push
        simp only
        rw [if_neg hec]
      · show s < c
        omega
      · rw [get_mk, if_neg (by omega)]
        simp [updFn]
      · intro i hi
        rw [get_mk, if_neg (by omega), get_mk, if_neg (by omega)]
        simp only [updFn]
        rw [if_neg (by omega)]
      · show s + 1 ≤ c
        omega
      · show (some (updFn buf s x)).isSome = true ↔ 0 < c
        simp
        omega

/-- Unfolding lemma for a successful in-place write. -/
theorem set_spec_aux {T : Type} (v : MiniVec T) (i : Nat) (x : T) (buf : Nat → T)
    (hb : v.buffer = some buf) (hi : i < v.size) :
    set v i x = some ⟨v.capacity, v.size, some (updFn buf i x)⟩ := by
  unfold set
  rw [if_neg (by omega), hb]

/-- A capacity of the form `2 * 2 ^ k` that is either the least such
value or smaller than `2 * N` is the smallest value of that form that
is at least `N`. -/
theorem cap_minimal (c N : Nat) (hform : ∃ k : Nat, c = 2 * 2 ^ k)
    (hc : c = 2 ∨ c < 2 * N) :
    ∀ j : Nat, N ≤ 2 * 2 ^ j → c ≤ 2 * 2 ^ j := by
  intro j hj
  rcases hc with h2 | hlt
  · have hp : 0 < 2 ^ j := Nat.pow_pos (by omega)
    omega
  · obtain ⟨k, rfl⟩ := hform
    have hkj : k ≤ j := by
      by_contra hgt
      have h1 : (2:Nat) ^ (j + 1) ≤ 2 ^ k := Nat.pow_le_pow_right (by omega) (by omega)
      rw [pow_succ] at h1
      omega
    have h2 : (2:Nat) ^ k ≤ 2 ^ j := Nat.pow_le_pow_right (by omega) hkj
    omega

/-- Main induction for sequences of pushes from `new`: after `n + 1`
pushes the container holds exactly the pushed values, satisfies the
invariant, and its capacity is of the form `2 * 2 ^ k`, is at least the
size, and is either the first capacity 2 or below twice the size. -/
theorem pushSeq_succ_spec {T : Type} [Inhabited T] (f : Nat → T) :
    ∀ n : Nat, ∃ v : MiniVec T, pushSeq f (n + 1) = some v ∧
      v.size = n + 1 ∧ Inv v ∧
      (∀ i : Nat, i < n + 1 → get v i = some (f i)) ∧
      (∃ k : Nat, v.capacity = 2 * 2 ^ k) ∧
      n + 1 ≤ v.capacity ∧ (v.capacity = 2 ∨ v.capacity < 2 * (n + 1)) := by
  intro n
  induction n with
  | zero =>
    obtain ⟨w, hp, hsz, hcg, hcn, hbs, hlt, hget, hfr, hinvw⟩ :=
      push_spec_aux (new T) (f 0) ⟨Nat.le_refl 0, by simp [new]⟩
    have hc : w.capacity = 2 := by
      have h := hcg rfl
      simp [new, DEFAULT_FIRST_CAP] at h
      exact h
    refine ⟨w, ?_, hsz, hinvw, ?_, ⟨0, by rw [hc]; decide⟩, by omega, Or.inl hc⟩
    · show push (new T) (f 0) = some w
      exact hp
    · intro i hi
      have hi0 : i = 0 := by omega
      subst hi0
      exact hget
  | succ m ih =>
    obtain ⟨v, hpv, hsv, hinv, hgets, ⟨k, hk⟩, hle, hmin⟩ := ih
    obtain ⟨w, hp, hsz, hcg, hcn, hbs, hlt, hget, hfr, hinvw⟩ :=
      push_spec_aux v (f (m + 1)) hinv
    have hcpos : 0 < v.capacity := by omega
    have hwcap : (v.size ≠ v.capacity ∧ w.capacity = v.capacity) ∨
        (v.size = v.capacity ∧ w.capacity = v.capacity * 2) := by
      by_cases hec : v.size = v.capacity
      · right
        refine ⟨hec, ?_⟩
        have h := hcg hec
        rw [if_neg (by omega)] at h
        exact h
      · left
        exact ⟨hec, hcn hec⟩
    refine ⟨w, ?_, ?_, hinvw, ?_, ?_, ?_, ?_⟩
    · show (pushSeq f (m + 1)).bind (fun u => push u (f (m + 1))) = some w
      rw [hpv]
      exact hp
    · rw [hsz, hsv]
    · intro i hi
      by_cases hlast : i = m + 1
      · subst hlast
        rw [hsv] at hget
        exact hget
      · rw [hfr i (by omega)]
        exact hgets i (by omega)
    · rcases hwcap with ⟨_, hw⟩ | ⟨_, hw⟩
      · exact ⟨k, by rw [hw, hk]⟩
      · exact ⟨k + 1, by rw [hw, hk]; ring⟩
    · rcases hwcap with ⟨hne, hw⟩ | ⟨heq, hw⟩
      · have := hinv.1
        omega
      · omega
    · rcases hwcap with ⟨hne, hw⟩ | ⟨heq, hw⟩
      · rcases hmin with h2 | h2
        · exact Or.inl (by omega)
        · exact Or.inr (by omega)
      · exact Or.inr (by omega)

/-! Claim theorems. -/

/-- C1: the claim states that `remove(index)` with `index >= size` always
signals a fatal invalid-usage error and is never a silent no-op or
partial operation.  The code violates this: `remove` has no bounds
check.  Evaluating the embedded code at the failing input — one `push`
followed by `remove(1)` on a container of size 1 — shows the call
completes without any panic and silently decrements `size` to 0 while
returning a junk value read from uninitialized memory (in the real
program that read is undefined behaviour, not a guaranteed abort). -/
theorem remove_out_of_range_not_fatal :
    (push (new Int) 0).map (fun v => (v.size, v.capacity)) = some (1, 2) ∧
    ((push (new Int) 0).bind (fun v => remove v 1)).map
      (fun p => (p.2.size, p.2.capacity)) = some (0, 2) :=
  ⟨rfl, rfl⟩

/-- C2: after `N` pushes from an empty container, `size = N` and the
capacity follows the doubling schedule: 0 when `N = 0`, and otherwise
the smallest value of the form `2 * 2 ^ k` that is at least the size. -/
theorem push_sequence_capacity_schedule (f : Nat → Int) (N : Nat) :
    ∃ v : MiniVec Int, pushSeq f N = some v ∧ v.size = N ∧
      (N = 0 → v.capacity = 0) ∧
      (0 < N → (∃ k : Nat, v.capacity = 2 * 2 ^ k) ∧ N ≤ v.capacity ∧
        ∀ j : Nat, N ≤ 2 * 2 ^ j → v.capacity ≤ 2 * 2 ^ j) := by
  cases N with
  | zero =>
    exact ⟨new Int, rfl, rfl, fun _ => rfl, fun h => absurd h (by omega)⟩
  | succ n =>
    obtain ⟨v, hp, hs, _, _, hform, hle, hmin⟩ := pushSeq_succ_spec f n
    exact ⟨v, hp, hs, fun h => absurd h (by omega),
      fun _ => ⟨hform, hle, cap_minimal v.capacity (n + 1) hform hmin⟩⟩

/-- Witness for C2 at `N = 5`: five pushes give size 5 and capacity 8. -/
theorem push_sequence_capacity_schedule_w :
    ∃ v : MiniVec Int, pushSeq (fun i => (i : Int)) 5 = some v ∧ v.size = 5 ∧
      ((5:Nat) = 0 → v.capacity = 0) ∧
      ((0:Nat) < 5 → (∃ k : Nat, v.capacity = 2 * 2 ^ k) ∧ 5 ≤ v.capacity ∧
        ∀ j : Nat, 5 ≤ 2 * 2 ^ j → v.capacity ≤ 2 * 2 ^ j) :=
  push_sequence_capacity_schedule (fun i => (i : Int)) 5

/-- C3: `remove` at a valid index returns the value previously stored
there, decrements `size` by one, leaves `capacity` unchanged, leaves
elements before `index` unchanged, and shifts each element previously
at `index+1 .. size-1` down one position, preserving their order. -/
theorem remove_valid_spec (v : MiniVec Int) (index : Nat) (hinv : Inv v)
    (hidx : index < v.size) :
    ∃ (x : Int) (w : MiniVec Int), remove v index = some (x, w) ∧
      get v index = some x ∧
      w.size = v.size - 1 ∧ w.capacity = v.capacity ∧
      (∀ i : Nat, i < index → get w i = get v i) ∧
      (∀ i : Nat, index ≤ i → i < v.size - 1 → get w i = get v (i + 1)) := by
  obtain ⟨hsc, hbs⟩ := hinv
  obtain ⟨buf, hb⟩ := Option.isSome_iff_exists.mp (hbs.mpr (by omega))
  refine ⟨buf index, _, remove_spec_aux v index buf hb (by omega), ?_, rfl, rfl, ?_, ?_⟩
  · unfold get
    rw [if_neg (by omega), hb]
  · intro i hi
    rw [get_mk, if_neg (by omega), shiftLoop_apply, if_neg (by omega)]
    unfold get
    rw [if_neg (by omega), hb]
  · intro i h1 h2
    rw [get_mk, if_neg (by omega), shiftLoop_apply, if_pos (by omega)]
    unfold get
    rw [if_neg (by omega), hb]

/-- Witness for C3: removing index 0 from the container with elements
0, 1 at capacity 2. -/
theorem remove_valid_spec_w :
    Inv (⟨2, 2, some (fun i => (i : Int))⟩ : MiniVec Int) ∧
    (∃ (x : Int) (w : MiniVec Int),
      remove (⟨2, 2, some (fun i => (i : Int))⟩ : MiniVec Int) 0 = some (x, w) ∧
      get (⟨2, 2, some (fun i => (i : Int))⟩ : MiniVec Int) 0 = some x ∧
      w.size = 1 ∧ w.capacity = 2 ∧
      (∀ i : Nat, i < 0 → get w i = get (⟨2, 2, some (fun i => (i : Int))⟩ : MiniVec Int) i) ∧
      (∀ i : Nat, 0 ≤ i → i < 1 →
        get w i = get (⟨2, 2, some (fun i => (i : Int))⟩ : MiniVec Int) (i + 1))) :=
  ⟨by decide, remove_valid_spec _ 0 (by decide) (by decide)⟩

/-- C4: `push` increments `size` by one, stores the new value at index
`old_size`, and leaves every previously stored element unchanged; and
for every sequence of `N` pushes from empty, the final container has
size `N` with every pushed value retrievable unchanged at its original
index. -/
theorem push_stores_and_preserves :
    (∀ (v : MiniVec Int) (x : Int), Inv v → ∃ w : MiniVec Int,
      push v x = some w ∧ w.size = v.size + 1 ∧ get w v.size = some x ∧
      ∀ i : Nat, i < v.size → get w i = get v i) ∧
    (∀ (f : Nat → Int) (N : Nat), ∃ u : MiniVec Int,
      pushSeq f N = some u ∧ u.size = N ∧
      ∀ i : Nat, i < N → get u i = some (f i)) := by
  constructor
  · intro v x h
    obtain ⟨w, hp, hsz, _, _, _, _, hget, hfr, _⟩ := push_spec_aux v x h
    exact ⟨w, hp, hsz, hget, hfr⟩
  · intro f N
    cases N with
    | zero => exact ⟨new Int, rfl, rfl, fun i hi => absurd hi (by omega)⟩
    | succ n =>
      obtain ⟨v, hp, hs, _, hgets, _, _, _⟩ := pushSeq_succ_spec f n
      exact ⟨v, hp, hs, hgets⟩

/-- Witness for C4: pushing 9 onto a size-1 container stores it at
index 1 and keeps index 0 intact. -/
theorem push_stores_and_preserves_w :
    Inv (⟨2, 1, some (fun _ => (7 : Int))⟩ : MiniVec Int) ∧
    (∃ w : MiniVec Int,
      push (⟨2, 1, some (fun _ => (7 : Int))⟩ : MiniVec Int) 9 = some w ∧
      w.size = 2 ∧ get w 1 = some 9 ∧
      ∀ i : Nat, i < 1 → get w i = get (⟨2, 1, some (fun _ => (7 : Int))⟩ : MiniVec Int) i) :=
  ⟨by decide, push_stores_and_preserves.1 _ 9 (by decide)⟩

/-- C5: both read indexing and write indexing with `index >= size`
abort (the explicit bounds checks in `Index::index` and
`IndexMut::index_mut`), for every container state including the empty
one; no call path yields a value or a writable slot. -/
theorem out_of_range_access_fatal (v : MiniVec Int) (index : Nat) (x : Int)
    (h : v.size ≤ index) :
    get v index = none ∧ set v index x = none := by
  constructor
  · unfold get
    rw [if_pos h]
  · unfold set
    rw [if_pos h]

/-- Witness for C5: indexing the empty container at 3 fails both ways. -/
theorem out_of_range_access_fatal_w :
    (new Int).size ≤ 3 ∧ (get (new Int) 3 = none ∧ set (new Int) 3 5 = none) :=
  ⟨by decide, out_of_range_access_fatal (new Int) 3 5 (by decide)⟩

/-- C6: the invariant `size <= capacity` together with `a storage buffer
exists exactly when capacity > 0` holds for `new` and is preserved by
every state-changing operation that completes (`push`, `remove`, and
writes through `IndexMut`; reads through `Index` borrow the container
immutably and return no state). -/
theorem state_invariant_preserved :
    Inv (new Int) ∧
    (∀ (v : MiniVec Int) (x : Int) (w : MiniVec Int),
      Inv v → push v x = some w → Inv w) ∧
    (∀ (v : MiniVec Int) (index : Nat) (x : Int) (w : MiniVec Int),
      Inv v → remove v index = some (x, w) → Inv w) ∧
    (∀ (v : MiniVec Int) (index : Nat) (y : Int) (w : MiniVec Int),
      Inv v → set v index y = some w → Inv w) := by
  refine ⟨⟨Nat.le_refl 0, by simp [new]⟩, ?_, ?_, ?_⟩
  · intro v x w hinv hp
    obtain ⟨w', hp', _, _, _, _, _, _, _, hinvw⟩ := push_spec_aux v x hinv
    rw [hp'] at hp
    rw [← Option.some.inj hp]
    exact hinvw
  · intro v index x w hinv hrm
    obtain ⟨hsc, hbs⟩ := hinv
    cases hb : v.buffer with
    | none =>
      unfold remove at hrm
      rw [hb] at hrm
      exact absurd hrm (by simp)
    | some buf =>
      have hcpos : 0 < v.capacity := hbs.mp (by rw [hb]; rfl)
      by_cases hs0 : v.size = 0
      · unfold remove at hrm
        rw [hb] at hrm
        simp [hs0] at hrm
      · have hrm' := remove_spec_aux v index buf hb (by omega)
        rw [hrm'] at hrm
        have hpair := Option.some.inj hrm
        rw [Prod.mk.injEq] at hpair
        rw [← hpair.2]
        exact ⟨by show v.size - 1 ≤ v.capacity; omega,
          by show (some _).isSome = true ↔ 0 < v.capacity; simp; omega⟩
  · intro v index y w hinv hst
    obtain ⟨hsc, hbs⟩ := hinv
    by_cases hle : v.size ≤ index
    · unfold set at hst
      rw [if_pos hle] at hst
      exact absurd hst (by simp)
    · cases hb : v.buffer with
      | none =>
        unfold set at hst
        rw [if_neg hle, hb] at hst
        exact absurd hst (by simp)
      | some buf =>
        have hcpos : 0 < v.capacity := hbs.mp (by rw [hb]; rfl)
        rw [set_spec_aux v index y buf hb (by omega)] at hst
        rw [← Option.some.inj hst]
        exact ⟨by show v.size ≤ v.capacity; omega,
          by show (some _).isSome = true ↔ 0 < v.capacity; simp; omega⟩

/-- Witness for C6: the invariant holds for `new` and for the state
after pushing 3 onto `new`. -/
theorem state_invariant_preserved_w :
    Inv (new Int) ∧
    Inv (⟨2, 1, some (updFn (fun _ => (default : Int)) 0 3)⟩ : MiniVec Int) :=
  ⟨state_invariant_preserved.1,
    state_invariant_preserved.2.1 (new Int) 3 _ (by decide) rfl⟩

/-- C7: a write through `IndexMut` at a valid index changes only the
element at that index: `size`, `capacity`, and every other element are
unchanged.  Read indexing (`Index::index`) takes the container by
immutable borrow and is embedded as a pure function of the state, so it
cannot change `size`, `capacity`, or any element. -/
theorem set_changes_only_target (v : MiniVec Int) (index : Nat) (x : Int)
    (w : MiniVec Int) (h : set v index x = some w) :
    w.size = v.size ∧ w.capacity = v.capacity ∧ get w index = some x ∧
    ∀ j : Nat, j ≠ index → get w j = get v j := by
  by_cases hle : v.size ≤ index
  · unfold set at h
    rw [if_pos hle] at h
    exact absurd h (by simp)
  · cases hb : v.buffer with
    | none =>
      unfold set at h
      rw [if_neg hle, hb] at h
      exact absurd h (by simp)
    | some buf =>
      rw [set_spec_aux v index x buf hb (by omega)] at h
      rw [← Option.some.inj h]
      refine ⟨rfl, rfl, ?_, ?_⟩
      · rw [get_mk, if_neg (by omega)]
        simp [updFn]
      · intro j hj
        by_cases hjs : v.size ≤ j
        · rw [get_mk, if_pos hjs]
          unfold get
          rw [if_pos hjs]
        · rw [get_mk, if_neg hjs]
          simp only [updFn]
          rw [if_neg hj]
          unfold get
          rw [if_neg hjs, hb]

/-- Witness for C7: writing 90 at index 2 of the container 0,1,2,3. -/
theorem set_changes_only_target_w :
    (⟨4, 4, some (updFn (fun i => (i : Int)) 2 90)⟩ : MiniVec Int).size = 4 ∧
    (⟨4, 4, some (updFn (fun i => (i : Int)) 2 90)⟩ : MiniVec Int).capacity = 4 ∧
    get (⟨4, 4, some (updFn (fun i => (i : Int)) 2 90)⟩ : MiniVec Int) 2 = some 90 ∧
    ∀ j : Nat, j ≠ 2 →
      get (⟨4, 4, some (updFn (fun i => (i : Int)) 2 90)⟩ : MiniVec Int) j =
        get (⟨4, 4, some (fun i => (i : Int))⟩ : MiniVec Int) j :=
  set_changes_only_target (⟨4, 4, some (fun i => (i : Int))⟩ : MiniVec Int) 2 90 _ rfl

/-- C8: pushing `v` and then removing the last element returns `v` and
restores the previous size. -/
theorem push_remove_roundtrip (v : MiniVec Int) (x : Int) (hinv : Inv v) :
    ∃ (w : MiniVec Int) (r : Int) (u : MiniVec Int),
      push v x = some w ∧ remove w (w.size - 1) = some (r, u) ∧
      r = x ∧ u.size = v.size := by
  obtain ⟨w, hp, hsz, _, _, hbs, _, hget, _, _⟩ := push_spec_aux v x hinv
  obtain ⟨bw, hbw⟩ := Option.isSome_iff_exists.mp hbs
  have hb : bw v.size = x := by
    unfold get at hget
    rw [if_neg (by omega), hbw] at hget
    exact Option.some.inj hget
  refine ⟨w, bw (w.size - 1), _, hp,
    remove_spec_aux w (w.size - 1) bw hbw (by omega), ?_, ?_⟩
  · rw [show w.size - 1 = v.size by omega]
    exact hb
  · show w.size - 1 = v.size
    omega

/-- Witness for C8: pushing 42 onto the empty container and removing
the last element gives back 42 and size 0. -/
theorem push_remove_roundtrip_w :
    Inv (new Int) ∧
    (∃ (w : MiniVec Int) (r : Int) (u : MiniVec Int),
      push (new Int) 42 = some w ∧ remove w (w.size - 1) = some (r, u) ∧
      r = 42 ∧ u.size = 0) :=
  ⟨by decide, push_remove_roundtrip (new Int) 42 (by decide)⟩

/-- C9: `new()` returns a container with capacity 0, size 0, and no
storage allocation. -/
theorem new_no_allocation :
    (new Int).capacity = 0 ∧ (new Int).size = 0 ∧ (new Int).buffer = none :=
  ⟨rfl, rfl, rfl⟩

/-- C10: on a non-empty container, `remove` with any `index >= size`
takes no error branch: the shift loop is empty, `size` is still
decremented by exactly one, and `capacity` is unchanged. -/
theorem remove_oob_silent_decrement (v : MiniVec Int) (index : Nat)
    (hinv : Inv v) (hsz : 0 < v.size) (_hidx : v.size ≤ index) :
    ∃ (x : Int) (w : MiniVec Int), remove v index = some (x, w) ∧
      w.size = v.size - 1 ∧ w.capacity = v.capacity := by
  obtain ⟨hsc, hbs⟩ := hinv
  obtain ⟨buf, hb⟩ := Option.isSome_iff_exists.mp (hbs.mpr (by omega))
  exact ⟨buf index, _, remove_spec_aux v index buf hb hsz, rfl, rfl⟩

/-- Witness for C10: removing index 5 from a size-1 container silently
yields size 0, capacity 2. -/
theorem remove_oob_silent_decrement_w :
    Inv (⟨2, 1, some (fun _ => (7 : Int))⟩ : MiniVec Int) ∧ (0:Nat) < 1 ∧ (1:Nat) ≤ 5 ∧
    (∃ (x : Int) (w : MiniVec Int),
      remove (⟨2, 1, some (fun _ => (7 : Int))⟩ : MiniVec Int) 5 = some (x, w) ∧
      w.size = 0 ∧ w.capacity = 2) :=
  ⟨by decide, by decide, by decide,
    remove_oob_silent_decrement _ 5 (by decide) (by decide) (by decide)⟩

end MiniVec
